import Mathlib

/-!
Shallow embedding of the local RAG retrieval engine (`LocalRagService`):
the document model, heuristic metadata extraction, incremental indexing,
and token-budgeted relevance search, together with proofs of the
specification claims about them.

JavaScript strings are modelled as Lean `String`s, JS numbers occurring
as scores as `ℚ` (the score arithmetic here is exact: sums of naturals,
halves, and one division), timestamps and sizes as `Nat`.
-/

namespace Rag

attribute [local semireducible] Rat.add Rat.mul Rat.inv Rat.sub

instance {ε α : Type} [DecidableEq ε] [DecidableEq α] : DecidableEq (Except ε α) := fun a b =>
  match a, b with
  | Except.error e, Except.error e' => decidable_of_iff (e = e') (by simp)
  | Except.error _, Except.ok _ => isFalse (by simp)
  | Except.ok _, Except.error _ => isFalse (by simp)
  | Except.ok a, Except.ok b => decidable_of_iff (a = b) (by simp)

/-- Whitespace test used wherever the source uses the regex class `\s`
(ASCII fragment, which is all the proofs exercise). -/
def isWs (c : Char) : Bool := c.isWhitespace

/-- JS identifier characters, the regex class `[a-zA-Z0-9_$]`. -/
def isJsIdentChar (c : Char) : Bool := c.isAlphanum || c = '_' || c = '$'

/-- Python identifier characters, the regex class `[a-zA-Z0-9_]`. -/
def isPyIdentChar (c : Char) : Bool := c.isAlphanum || c = '_'

/-- Python dotted-module characters, the regex class `[a-zA-Z0-9_.]`. -/
def isPyModChar (c : Char) : Bool := c.isAlphanum || c = '_' || c = '.'

/-- Lower-casing as used by JS `toLowerCase` (ASCII fragment). -/
def strLower (s : String) : String := String.mk (s.toList.map Char.toLower)

/-- Does `pat` occur as a contiguous run inside `s`? -/
def includesChars (pat : List Char) : List Char → Bool
  | [] => pat.isEmpty
  | c :: cs => pat.isPrefixOf (c :: cs) || includesChars pat cs

/-- The JS `String.prototype.includes` substring test. -/
def includesStr (s pat : String) : Bool := includesChars pat.toList s.toList

/-- Count of leftmost, non-overlapping occurrences of the literal pattern
`p :: ps` in `s`: the number of matches a global literal regex or repeated
`indexOf` search yields.  The structural `fuel` argument only has to be at
least `s.length`: each step consumes one unit and at least one character
(a successful match is nonempty), so the fuel never runs out. -/
def countSubstrFuel (p : Char) (ps : List Char) : Nat → List Char → Nat
  | 0, _ => 0
  | _, [] => 0
  | fuel + 1, c :: cs =>
    if (p :: ps).isPrefixOf (c :: cs) then
      countSubstrFuel p ps fuel (cs.drop ps.length) + 1
    else
      countSubstrFuel p ps fuel cs

/-- Count of leftmost, non-overlapping occurrences with the fuel filled in. -/
def countSubstrAux (p : Char) (ps : List Char) (s : List Char) : Nat :=
  countSubstrFuel p ps s.length s

/-- Count of leftmost, non-overlapping occurrences of `pat` in `s`; an
empty pattern matches once at every position, as for JS regexes. -/
def countSubstr (pat s : String) : Nat :=
  match pat.toList with
  | [] => s.length + 1
  | p :: ps => countSubstrAux p ps s.toList

/-- Token of the modelled ECMAScript regex fragment: a literal character
or the `.` wildcard. -/
inductive RTok where
  | lit : Char → RTok
  | dot : RTok
deriving DecidableEq

/-- Characters with a special (non-literal) meaning in ECMAScript regex
patterns, other than `.` which the model supports. -/
def regexSpecials : List Char :=
  ['(', ')', '[', ']', '\x7b', '\x7d', '*', '+', '?', '\\', '|', '^', '$']

/-- Modelled from the spec: ECMAScript `new RegExp(pattern)` compilation
(the host JS engine, which is not part of this repository). Only the
fragment the claims exercise is modelled: patterns made of literal
characters and the `.` wildcard compile; patterns containing any other
regex metacharacter are outside the fragment and conservatively mapped to
compile failure — in particular a pattern of unbalanced group parens such
as `(((` is a `SyntaxError` in JS and fails to compile here. -/
def compileRegex (pat : String) : Option (List RTok) :=
  if pat.toList.any (fun c => regexSpecials.contains c) then none
  else some (pat.toList.map (fun c => if c = '.' then RTok.dot else RTok.lit c))

/-- Does the token sequence match a prefix of `s`?  The `.` wildcard
matches any character except a line terminator, as in ECMAScript. -/
def rtoksMatchPrefix : List RTok → List Char → Bool
  | [], _ => true
  | _ :: _, [] => false
  | RTok.lit c :: ps, x :: xs => c = x && rtoksMatchPrefix ps xs
  | RTok.dot :: ps, x :: xs => !(x = '\n') && !(x = '\r') && rtoksMatchPrefix ps xs

/-- Count of leftmost, non-overlapping matches of the (fixed-width)
token sequence `p :: ps` in `s`, the behaviour of a JS global regex.
Fuel as in `countSubstrFuel`. -/
def regexCountFuel (p : RTok) (ps : List RTok) : Nat → List Char → Nat
  | 0, _ => 0
  | _, [] => 0
  | fuel + 1, c :: cs =>
    if rtoksMatchPrefix (p :: ps) (c :: cs) then
      regexCountFuel p ps fuel (cs.drop ps.length) + 1
    else
      regexCountFuel p ps fuel cs

/-- Count of leftmost, non-overlapping matches with the fuel filled in. -/
def regexCountAux (p : RTok) (ps : List RTok) (s : List Char) : Nat :=
  regexCountFuel p ps s.length s

/-- The number of matches `content.match(new RegExp(pat, 'g'))` yields:
`none` when the pattern does not compile (a thrown `SyntaxError`). -/
def jsMatchCount (pat content : String) : Option Nat :=
  (compileRegex pat).map fun toks =>
    match toks with
    | [] => content.length + 1
    | p :: ps => regexCountAux p ps content.toList

/-- A query term that is free of every regex metacharacter (including the
wildcard `.`), so that matching it as a pattern is literal substring
search. -/
def regexLiteralTerm (t : String) : Bool :=
  t.toList.all (fun c => !(c = '.') && !(regexSpecials.contains c))

/-- Interface for a document in the RAG index.  The source's optional
metadata arrays are plain lists (an absent array and an empty one behave
identically everywhere they are read); the optional `fileType` string is
an `Option`. -/
structure IndexedDocument where
  path : String
  content : String
  language : String
  lastModified : Nat
  tokens : Nat
  symbols : List String
  exports : List String
  comments : List String
  fileType : Option String
  imports : List String
deriving DecidableEq

/-- Interface for a search result. -/
structure SearchResult where
  document : IndexedDocument
  relevanceScore : ℚ
deriving DecidableEq

/-- Accumulator pass splitting a character list at whitespace runs; `cur`
holds the (reversed) word being built. -/
def splitWsCore : List Char → List Char → List (List Char)
  | cur, [] => if cur.isEmpty then [] else [cur.reverse]
  | cur, c :: cs =>
    if isWs c then
      if cur.isEmpty then splitWsCore [] cs else cur.reverse :: splitWsCore [] cs
    else splitWsCore (c :: cur) cs

/-- The JS `split(/\s+/)` splitter, except that a leading empty piece (JS
yields one when the string starts with whitespace) is dropped here; every
consumer filters such pieces out immediately, so the difference is never
observable. -/
def splitWsRuns (s : List Char) : List (List Char) := splitWsCore [] s

/-- Query tokenization of `search`:
`query.toLowerCase().split(/\s+/).filter(term => term.length > 2)`. -/
def tokenizeQuery (query : String) : List String :=
  ((splitWsRuns (strLower query).toList).map String.mk).filter (fun t => 2 < t.length)

/-- The content-match loop of `search`: for each term, the count of
global regex matches of the term in the (lower-cased) content, summed;
an invalid pattern throws, modelled as `Except.error`. -/
def contentScore (content : String) : List String → Except Unit ℚ
  | [] => Except.ok 0
  | t :: ts =>
    match jsMatchCount t content with
    | none => Except.error ()
    | some n =>
      match contentScore content ts with
      | Except.error e => Except.error e
      | Except.ok r => Except.ok ((n : ℚ) + r)

/-- One metadata boost loop of `search`: for each (term, item) pair with
the lower-cased item containing the term, add `w`. -/
def metaBoost (w : ℚ) (terms items : List String) : ℚ :=
  terms.foldl
    (fun acc t =>
      items.foldl (fun acc2 it => if includesStr (strLower it) t then acc2 + w else acc2) acc)
    0

/-- The file-type boost of `search`: +4 once if the document's file type
(textually) contains a query term, or the query contains `test` and the
file type has a `-test` infix, or the query contains `react` and the file
type has a `-react` infix.  A missing (or empty, hence JS-falsy) file
type never boosts. -/
def fileTypeBoost (fileType : Option String) (terms : List String) : ℚ :=
  match fileType with
  | none => 0
  | some ft =>
    if ft = "" then 0
    else if terms.any (fun t =>
        includesStr (strLower ft) t ||
        (t = "test" && includesStr ft "-test") ||
        (t = "react" && includesStr ft "-react")) then 4
    else 0

/-- The per-document score of `search`: content regex counts, then the
symbol (+5), import (+2), export (+3) and comment (+1.5) boosts, then the
file-type boost, normalized by the token count (`doc.tokens || 1`). -/
def docScore (doc : IndexedDocument) (terms : List String) : Except Unit ℚ :=
  match contentScore (strLower doc.content) terms with
  | Except.error e => Except.error e
  | Except.ok base =>
    let s := base
      + metaBoost 5 terms doc.symbols
      + metaBoost 2 terms doc.imports
      + metaBoost 3 terms doc.exports
      + metaBoost (3/2) terms doc.comments
      + fileTypeBoost doc.fileType terms
    Except.ok (s / (if doc.tokens = 0 then 1 else (doc.tokens : ℚ)))

/-- The document loop of `search`: score every document of the store (in
insertion order, the iteration order of a JS `Map`), keeping those with a
strictly positive score. -/
def scoreDocs (docs : List IndexedDocument) (terms : List String) :
    Except Unit (List SearchResult) :=
  match docs with
  | [] => Except.ok []
  | d :: ds =>
    match docScore d terms with
    | Except.error e => Except.error e
    | Except.ok sc =>
      match scoreDocs ds terms with
      | Except.error e => Except.error e
      | Except.ok rest =>
        Except.ok (if 0 < sc then ⟨d, sc⟩ :: rest else rest)

/-- The budget loop of `search`: walk the ranked candidates, keeping a
candidate only while the running token total stays within `maxTokens`;
an oversized candidate is skipped and the walk continues. -/
def greedyTake (maxTokens : Nat) : Nat → List SearchResult → List SearchResult
  | _, [] => []
  | total, r :: rs =>
    if total + r.document.tokens ≤ maxTokens then
      r :: greedyTake maxTokens (total + r.document.tokens) rs
    else
      greedyTake maxTokens total rs

/-- Stable insertion of a result into a descending-by-score list: the
inserted element goes after every earlier element of no smaller score. -/
def insertDesc (r : SearchResult) : List SearchResult → List SearchResult
  | [] => [r]
  | x :: xs =>
    if r.relevanceScore < x.relevanceScore then x :: insertDesc r xs
    else r :: x :: xs

/-- Stable sort by descending `relevanceScore`.  ECMAScript specifies
`Array.prototype.sort` to be stable, and a stable sort into descending
score order is a unique function of the input list, so this insertion
sort is extensionally the source's `results.sort((a, b) =>
b.relevanceScore - a.relevanceScore)`. -/
def sortByScoreDesc : List SearchResult → List SearchResult
  | [] => []
  | x :: xs => insertDesc x (sortByScoreDesc xs)

/-- Search for relevant documents: score and filter the store, sort by
descending relevance, take the first `maxResults`, and greedily apply the
token budget.  A query term that is an invalid regex pattern makes the
whole call throw (`Except.error`) as soon as one document is scored. -/
def search (docs : List IndexedDocument) (query : String)
    (maxResults maxTokens : Nat) : Except Unit (List SearchResult) :=
  match scoreDocs docs (tokenizeQuery query) with
  | Except.error e => Except.error e
  | Except.ok results =>
    Except.ok (greedyTake maxTokens 0 ((sortByScoreDesc results).take maxResults))

/-- Sum of the token counts of a result list. -/
def sumTokens (rs : List SearchResult) : Nat :=
  (rs.map (fun r => r.document.tokens)).sum

/-- Split off a nonempty maximal run of characters satisfying `p`;
`none` when the first character fails `p` (the regex `p+`). -/
def takeWhile1 (p : Char → Bool) (s : List Char) : Option (List Char × List Char) :=
  match s with
  | [] => none
  | c :: cs => if p c then some (c :: cs.takeWhile p, cs.dropWhile p) else none

/-- Run a per-position matcher over the whole text, leftmost first and
non-overlapping, collecting the value each match produces: the behaviour
of a JS global regex scan.  The structural `fuel` only has to be at least
the text length, since every matcher here consumes at least one
character. -/
def scanCapFuel (try1 : List Char → Option (String × List Char)) :
    Nat → List Char → List String
  | 0, _ => []
  | _, [] => []
  | fuel + 1, c :: cs =>
    match try1 (c :: cs) with
    | some (v, rest) => v :: scanCapFuel try1 fuel rest
    | none => scanCapFuel try1 fuel cs

/-- Global regex scan with the fuel filled in. -/
def scanCap (try1 : List Char → Option (String × List Char)) (s : List Char) :
    List String :=
  scanCapFuel try1 s.length s

/-- The trailing part of a declaration pattern after the identifier. -/
inductive DeclTail where
  | bare   -- nothing, as in `class\s+NAME`
  | paren  -- `\s*\(`, as in `function\s+NAME\s*\(`
  | eq     -- `\s*=`, as in `const\s+NAME\s*=`
  | arrow  -- `\s*=\s*\([^)]*\)\s*=>`, the arrow-function binding

/-- Match one `DeclTail` at the start of `s`, returning the consumed
characters and the remainder. -/
def tryTail : DeclTail → List Char → Option (List Char × List Char)
  | DeclTail.bare, s => some ([], s)
  | DeclTail.paren, s =>
    match (s.takeWhile isWs, s.dropWhile isWs) with
    | (w, '(' :: r) => some (w ++ ['('], r)
    | _ => none
  | DeclTail.eq, s =>
    match (s.takeWhile isWs, s.dropWhile isWs) with
    | (w, '=' :: r) => some (w ++ ['='], r)
    | _ => none
  | DeclTail.arrow, s =>
    match (s.takeWhile isWs, s.dropWhile isWs) with
    | (w1, '=' :: r1) =>
      match (r1.takeWhile isWs, r1.dropWhile isWs) with
      | (w2, '(' :: r2) =>
        let body := r2.takeWhile (fun c => !(c = ')'))
        match r2.dropWhile (fun c => !(c = ')')) with
        | ')' :: r3 =>
          match (r3.takeWhile isWs, r3.dropWhile isWs) with
          | (w3, '=' :: '>' :: r4) =>
            some (w1 ++ ['='] ++ w2 ++ ['('] ++ body ++ [')'] ++ w3 ++ ['=', '>'], r4)
          | _ => none
        | _ => none
      | _ => none
    | _ => none

/-- The name a matched declaration pushes: the source takes the full regex
match and strips the keyword, the whitespace and everything from the
character after the identifier on with two `replace` calls; since the
identifier is a maximal identifier-character run, that is exactly the run
after the keyword and whitespace. -/
def declName (kw : List Char) (identChar : Char → Bool) (m : List Char) : String :=
  String.mk (((m.drop kw.length).dropWhile isWs).takeWhile identChar)

/-- Match one declaration pattern `KW\s+IDENT<tail>` at the start of `s`,
producing the pushed name (see `declName`) and the remainder. -/
def tryDecl (kw : List Char) (identChar : Char → Bool) (t : DeclTail)
    (s : List Char) : Option (String × List Char) :=
  if kw.isPrefixOf s then
    match takeWhile1 isWs (s.drop kw.length) with
    | none => none
    | some (w, s2) =>
      match takeWhile1 identChar s2 with
      | none => none
      | some (name, s3) =>
        match tryTail t s3 with
        | none => none
        | some (tl, s4) => some (declName kw identChar (kw ++ w ++ name ++ tl), s4)
  else none

/-- First-occurrence deduplication with an accumulator of already-seen
strings: the `[...new Set(xs)]` idiom of the source. -/
def dedupFirstAux (seen : List String) : List String → List String
  | [] => []
  | x :: xs =>
    if seen.contains x then dedupFirstAux seen xs
    else x :: dedupFirstAux (x :: seen) xs

/-- The `[...new Set(xs)]` idiom: keep the first occurrence of each
string, in order. -/
def jsSetDedup (l : List String) : List String := dedupFirstAux [] l

/-- Extract symbols (function/class/variable names) from content, per the
source's battery of per-language declaration regexes, deduplicated. -/
def extractSymbols (content : String) (language : String) : List String :=
  if language = "javascript" || language = "typescript" then
    let cs := content.toList
    let functionMatches := scanCap (tryDecl "function".toList isJsIdentChar DeclTail.paren) cs
    let classMatches := scanCap (tryDecl "class".toList isJsIdentChar DeclTail.bare) cs
    let constMatches := scanCap (tryDecl "const".toList isJsIdentChar DeclTail.eq) cs
    let letMatches := scanCap (tryDecl "let".toList isJsIdentChar DeclTail.eq) cs
    let varMatches := scanCap (tryDecl "var".toList isJsIdentChar DeclTail.eq) cs
    let arrowFunctionMatches := scanCap (tryDecl "const".toList isJsIdentChar DeclTail.arrow) cs
    jsSetDedup (functionMatches ++ classMatches ++ constMatches ++ letMatches ++
      varMatches ++ arrowFunctionMatches)
  else if language = "python" then
    let cs := content.toList
    let functionMatches := scanCap (tryDecl "def".toList isPyIdentChar DeclTail.paren) cs
    let classMatches := scanCap (tryDecl "class".toList isPyIdentChar DeclTail.bare) cs
    jsSetDedup (functionMatches ++ classMatches)
  else
    jsSetDedup []

/-- Is this character a JS string quote (the regex class `['"]`)? -/
def isQuoteChar (c : Char) : Bool := c = '\'' || c = '"'

/-- Match `from\s+['"]([^'"]+)['"];?` at the start of `s`, returning the
captured module path and the remainder. -/
def tryFromQuote (s : List Char) : Option (String × List Char) :=
  if "from".toList.isPrefixOf s then
    match takeWhile1 isWs (s.drop 4) with
    | none => none
    | some (_, s2) =>
      match s2 with
      | [] => none
      | q :: s3 =>
        if !(isQuoteChar q) then none
        else
          match takeWhile1 (fun c => !(isQuoteChar c)) s3 with
          | none => none
          | some (body, s4) =>
            match s4 with
            | [] => none
            | q2 :: s5 =>
              if !(isQuoteChar q2) then none
              else
                match s5 with
                | ';' :: s6 => some (String.mk body, s6)
                | _ => some (String.mk body, s5)
  else none

/-- The lazy `.\*?` walk of the ES6-import regex: advance one character at
a time (never across a line terminator, which `.` cannot match) until the
`from ...` tail matches. -/
def scanLazyFrom : Nat → List Char → Option (String × List Char)
  | 0, _ => none
  | _, [] => none
  | fuel + 1, s =>
    match tryFromQuote s with
    | some r => some r
    | none =>
      match s with
      | [] => none
      | c :: cs => if c = '\n' || c = '\r' then none else scanLazyFrom fuel cs

/-- Match the ES6 import regex `import\s+.*?from\s+['"]([^'"]+)['"];?` at
the start of `s`, returning the captured module path (the source
re-extracts it from the full match with a second regex). -/
def tryJsImport (s : List Char) : Option (String × List Char) :=
  if "import".toList.isPrefixOf s then
    match takeWhile1 isWs (s.drop 6) with
    | none => none
    | some (_, s2) => scanLazyFrom (s2.length + 1) s2
  else none

/-- Match the require regex `require\s*\(['"]([^'"]+)['"]\)` at the start
of `s`. -/
def tryRequire (s : List Char) : Option (String × List Char) :=
  if "require".toList.isPrefixOf s then
    match (s.drop 7).dropWhile isWs with
    | '(' :: s2 =>
      match s2 with
      | [] => none
      | q :: s3 =>
        if !(isQuoteChar q) then none
        else
          match takeWhile1 (fun c => !(isQuoteChar c)) s3 with
          | none => none
          | some (body, s4) =>
            match s4 with
            | q2 :: ')' :: s5 =>
              if isQuoteChar q2 then some (String.mk body, s5) else none
            | _ => none
    | _ => none
  else none

/-- Match the Python import regex `import\s+([a-zA-Z0-9_.]+)` at the
start of `s`; the source strips the keyword and whitespace off the full
match to recover the module name. -/
def tryPyImport (s : List Char) : Option (String × List Char) :=
  if "import".toList.isPrefixOf s then
    match takeWhile1 isWs (s.drop 6) with
    | none => none
    | some (_, s2) =>
      match takeWhile1 isPyModChar s2 with
      | none => none
      | some (name, s3) => some (String.mk name, s3)
  else none

/-- Match the Python from-import regex `from\s+([a-zA-Z0-9_.]+)\s+import`
at the start of `s`, capturing the module name. -/
def tryPyFrom (s : List Char) : Option (String × List Char) :=
  if "from".toList.isPrefixOf s then
    match takeWhile1 isWs (s.drop 4) with
    | none => none
    | some (_, s2) =>
      match takeWhile1 isPyModChar s2 with
      | none => none
      | some (name, s3) =>
        match takeWhile1 isWs s3 with
        | none => none
        | some (_, s4) =>
          if "import".toList.isPrefixOf s4 then some (String.mk name, s4.drop 6)
          else none
  else none

/-- Extract imported module paths from content, per the source's
per-language import regexes, deduplicated.  (On Python sources the plain
`import` regex also fires inside `from X import Y` statements, capturing
`Y`; the model reproduces that faithfully.) -/
def extractImports (content : String) (language : String) : List String :=
  if language = "javascript" || language = "typescript" then
    let cs := content.toList
    jsSetDedup (scanCap tryJsImport cs ++ scanCap tryRequire cs)
  else if language = "python" then
    let cs := content.toList
    jsSetDedup (scanCap tryPyImport cs ++ scanCap tryPyFrom cs)
  else
    jsSetDedup []

/-- One alternative of the named-export regex
`export\s+(?:const|let|var|function|class)\s+([a-zA-Z0-9_$]+)`: try the
keyword together with its whole continuation, as a backtracking regex
alternation does. -/
def tryExportKw : List String → List Char → Option (String × List Char)
  | [], _ => none
  | k :: rest, s2 =>
    match
      (if k.toList.isPrefixOf s2 then
        match takeWhile1 isWs (s2.drop k.length) with
        | none => none
        | some (_, s3) =>
          match takeWhile1 isJsIdentChar s3 with
          | none => none
          | some (name, s4) => some (String.mk name, s4)
      else none) with
    | some r => some r
    | none => tryExportKw rest s2

/-- Match the named-export regex at the start of `s`.  The source splits
the full match on whitespace and pushes `parts[2]`, which the pattern
forces to be exactly the declared identifier. -/
def tryNamedExport (s : List Char) : Option (String × List Char) :=
  if "export".toList.isPrefixOf s then
    match takeWhile1 isWs (s.drop 6) with
    | none => none
    | some (_, s2) => tryExportKw ["const", "let", "var", "function", "class"] s2
  else none

/-- One branch of the optional group `(?:class|function)?` of the
default-export regex, with its continuation `\s*IDENT`: the consumed
characters and the remainder. -/
def optKwBranch (kw : List Char) (s : List Char) : Option (List Char × List Char) :=
  if kw.isPrefixOf s then
    let s1 := s.drop kw.length
    let w := s1.takeWhile isWs
    let s2 := s1.dropWhile isWs
    match takeWhile1 isJsIdentChar s2 with
    | some (name, s3) => some (kw ++ w ++ name, s3)
    | none => none
  else none

/-- The optional group with its continuation, tried as the regex engine
does: `class` first, then `function`, then the empty alternative. -/
def tryOptKwIdent (s : List Char) : Option (List Char × List Char) :=
  match optKwBranch "class".toList s with
  | some r => some r
  | none =>
    match optKwBranch "function".toList s with
    | some r => some r
    | none =>
      let w := s.takeWhile isWs
      let s2 := s.dropWhile isWs
      match takeWhile1 isJsIdentChar s2 with
      | some (name, s3) => some (w ++ name, s3)
      | none => none

/-- Match the default-export regex
`export\s+default\s+(?:class|function)?\s*([a-zA-Z0-9_$]+)` at the start
of `s`.  The source splits the full match on whitespace runs and pushes
`'default: '` concatenated with the last part — which is the optional
keyword glued to the identifier whenever no whitespace separates them. -/
def tryDefaultExport (s : List Char) : Option (String × List Char) :=
  if "export".toList.isPrefixOf s then
    match takeWhile1 isWs (s.drop 6) with
    | none => none
    | some (w1, s2) =>
      if "default".toList.isPrefixOf s2 then
        match takeWhile1 isWs (s2.drop 7) with
        | none => none
        | some (w2, s3) =>
          match tryOptKwIdent s3 with
          | none => none
          | some (tl, s4) =>
            let m := "export".toList ++ w1 ++ "default".toList ++ w2 ++ tl
            match (splitWsRuns m).getLast? with
            | some lastPart => some ("default: " ++ String.mk lastPart, s4)
            | none => none
      else none
  else none

/-- Extract exported symbol names from content, per the source's
named-export and default-export regexes (JS/TS family only),
deduplicated. -/
def extractExports (content : String) (language : String) : List String :=
  if language = "javascript" || language = "typescript" then
    let cs := content.toList
    jsSetDedup (scanCap tryNamedExport cs ++ scanCap tryDefaultExport cs)
  else
    jsSetDedup []

/-- Split a character list into its lines, treating both `\n` and `\r` as
terminators (as the multiline anchors and the `.` class of the comment
regexes do). -/
def splitLines (s : List Char) : List (List Char)  :=
  match s with
  | [] => [[]]
  | c :: cs =>
    if c = '\n' || c = '\r' then [] :: splitLines cs
    else
      match splitLines cs with
      | [] => [[c]]
      | l :: ls => (c :: l) :: ls

/-- The suffix of `s` starting at the first occurrence of `pat`, if any:
where a regex anchored at `pat` begins matching. -/
def findSub (pat : List Char) : List Char → Option (List Char)
  | [] => if pat.isEmpty then some [] else none
  | c :: cs => if pat.isPrefixOf (c :: cs) then some (c :: cs) else findSub pat cs

/-- Split `s` around the first occurrence of `pat`: the part before it
and the part after it. -/
def splitAtSub (pat : List Char) : List Char → Option (List Char × List Char)
  | [] => if pat.isEmpty then some ([], []) else none
  | c :: cs =>
    if pat.isPrefixOf (c :: cs) then some ([], (c :: cs).drop pat.length)
    else
      match splitAtSub pat cs with
      | some (pre, post) => some (c :: pre, post)
      | none => none

/-- The JS `String.prototype.trim`: strip leading and trailing
whitespace. -/
def jsTrim (l : List Char) : List Char :=
  ((l.dropWhile isWs).reverse.dropWhile isWs).reverse

/-- Clean one single-line (`//`) comment match: strip the delimiter and
the whitespace after it, then trim. -/
def cleanLineComment (m : List Char) : List Char :=
  jsTrim ((m.drop 2).dropWhile isWs)

/-- Clean one hash (`#`) comment match. -/
def cleanHashComment (m : List Char) : List Char :=
  jsTrim ((m.drop 1).dropWhile isWs)

/-- Match one block comment `/\*[\s\S]*?\*/` at the start of `s`.  The
lazy body stops at the first `*/`; the source then strips `/\*\s*` and
`\s*\*/` and trims, which on such a body is exactly a trim. -/
def tryBlockComment (s : List Char) : Option (String × List Char) :=
  if ['/', '*'].isPrefixOf s then
    match splitAtSub ['*', '/'] (s.drop 2) with
    | some (body, after) => some (String.mk (jsTrim body), after)
    | none => none
  else none

/-- Extract comments from content: per line the first `//` match to the
line end, every (lazy) block comment, and per line the first `#` match to
the line end, each cleaned of delimiters and trimmed, dropping empties.
The source never deduplicates this list (unlike the other three
extractors) and ignores the language parameter. -/
def extractComments (content : String) (_language : String) : List String :=
  let cs := content.toList
  let lines := splitLines cs
  let singleLineComments :=
    (lines.filterMap (findSub ['/', '/'])).map cleanLineComment
  let multiLineComments := scanCap tryBlockComment cs
  let hashComments :=
    (lines.filterMap (findSub ['#'])).map cleanHashComment
  (singleLineComments.map String.mk).filter (fun c => !(c = "")) ++
    multiLineComments.filter (fun c => !(c = "")) ++
    (hashComments.map String.mk).filter (fun c => !(c = ""))

/-- The Node `path.basename` for POSIX paths: everything after the last
separator. -/
def basename (p : String) : String :=
  String.mk ((p.toList.reverse.takeWhile (fun c => !(c = '/'))).reverse)

/-- The JS `String.prototype.startsWith`. -/
def startsWithStr (s pre : String) : Bool := pre.toList.isPrefixOf s.toList

/-- The JS `String.prototype.endsWith`. -/
def endsWithStr (s suf : String) : Bool :=
  suf.toList.reverse.isPrefixOf s.toList.reverse

/-- The Node `path.extname`: the basename's suffix from its last dot, or
empty when the basename has no dot or only a leading one. -/
def extname (p : String) : String :=
  let b := (basename p).toList
  let afterDot := (b.reverse.takeWhile (fun c => !(c = '.'))).length
  if afterDot = b.length then ""
  else if afterDot + 1 = b.length then ""
  else String.mk (b.drop (b.length - 1 - afterDot))

/-- The source's extension-to-language lookup table. -/
def languageMap : List (String × String) :=
  [(".js", "javascript"), (".ts", "typescript"), (".jsx", "javascript"),
   (".tsx", "typescript"), (".py", "python"), (".java", "java"),
   (".c", "c"), (".cpp", "cpp"), (".cs", "csharp"), (".go", "go"),
   (".rb", "ruby"), (".php", "php"), (".html", "html"), (".css", "css"),
   (".json", "json"), (".md", "markdown"), (".yml", "yaml"),
   (".yaml", "yaml"), (".sh", "bash"), (".bat", "batch"),
   (".ps1", "powershell"), (".sql", "sql"), (".rs", "rust"),
   (".swift", "swift"), (".kt", "kotlin"), (".scala", "scala"),
   (".dart", "dart"), (".lua", "lua"), (".r", "r")]

/-- Get the language from a file path: the lower-cased extension looked
up in the closed table, with `plaintext` as the fallback. -/
def getLanguageFromPath (filePath : String) : String :=
  match languageMap.lookup (strLower (extname filePath)) with
  | some lang => lang
  | none => "plaintext"

/-- Estimate token count for a string: `Math.ceil(text.length / 4)`. -/
def estimateTokenCount (text : String) : Nat :=
  (text.length + 3) / 4

/-- Detect file type based on content and path, by the source's
first-match-wins chain: test markers, then React markers (JS/TS family),
then well-known configuration filenames, then documentation. -/
def detectFileType (filePath content language : String) : String :=
  let fileName := strLower (basename filePath)
  if includesStr fileName ".test." || includesStr fileName ".spec." ||
      startsWithStr fileName "test_" || includesStr content "@test" ||
      (includesStr content "describe(" && includesStr content "it(") then
    language ++ "-test"
  else if (language = "javascript" || language = "typescript") &&
      (includesStr content "import React" || includesStr content "from \"react\"" ||
       includesStr content "extends Component" || includesStr content "React.Component" ||
       includesStr content "useState(" || includesStr content "useEffect(") then
    language ++ "-react"
  else if fileName = "package.json" || fileName = "tsconfig.json" ||
      endsWithStr fileName ".config.js" || endsWithStr fileName ".config.ts" then
    "config"
  else if language = "markdown" || endsWithStr fileName ".md" ||
      fileName = "readme" || fileName = "readme.txt" then
    "documentation"
  else
    language

/-- One file of the workspace enumeration, as the indexing pass observes
it: the glob result joined with the folder path, its current content and
stat data, the `KodelyIgnoreController.validateAccess` verdict (an
external boundary, a yes/no per path), and whether `stat`/`readFile`
throws for it (a transient error, caught and logged by the pass). -/
structure FsFile where
  path : String
  content : String
  size : Nat
  mtime : Nat
  accessible : Bool
  ioError : Bool
deriving DecidableEq

/-- The in-memory document store: the `Map` of indexed documents, keyed
by path, in insertion order. -/
abbrev Store := List (String × IndexedDocument)

/-- The JS `Map.set`: replace in place if the key is present (keeping its
position), append otherwise. -/
def mapSet (k : String) (v : IndexedDocument) : Store → Store
  | [] => [(k, v)]
  | (k', v') :: rest => if k' = k then (k, v) :: rest else (k', v') :: mapSet k v rest

/-- Build the `IndexedDocument` for a freshly read file: language from
the path, metadata from the extractors, token count recomputed from the
just-read content, `lastModified` from the current stat. -/
def mkDoc (f : FsFile) : IndexedDocument :=
  let language := getLanguageFromPath f.path
  { path := f.path
    content := f.content
    language := language
    lastModified := f.mtime
    tokens := estimateTokenCount f.content
    symbols := extractSymbols f.content language
    exports := extractExports f.content language
    comments := extractComments f.content language
    fileType := some (detectFileType f.path f.content language)
    imports := extractImports f.content language }

/-- Process one candidate file of an indexing pass.  Alongside the store
it threads the list of paths actually read from disk, so that "is never
re-read" is a statement of the model: a path is appended exactly when the
pass reaches the `readFile` branch.  Skips, in source order: an access
denial, a thrown `stat` (caught), an oversized file (> 1 MiB), and an
up-to-date store entry (`lastModified ≥` current mtime). -/
def indexFileT (acc : Store × List String) (f : FsFile) : Store × List String :=
  let (store, reads) := acc
  if !f.accessible then (store, reads)
  else if f.ioError then (store, reads)
  else if 1024 * 1024 < f.size then (store, reads)
  else
    match store.lookup f.path with
    | some existingDoc =>
      if f.mtime ≤ existingDoc.lastModified then (store, reads)
      else (mapSet f.path (mkDoc f) store, reads ++ [f.path])
    | none => (mapSet f.path (mkDoc f) store, reads ++ [f.path])

/-- A whole indexing pass over the enumerated workspace files, with its
read trace. -/
def indexPassT (fs : List FsFile) (store : Store) : Store × List String :=
  fs.foldl indexFileT (store, [])

/-- The store produced by an indexing pass. -/
def indexPass (fs : List FsFile) (store : Store) : Store :=
  (indexPassT fs store).1

/-- The service state an `indexWorkspace` call sees: the document store
and the single boolean in-flight guard. -/
structure RagState where
  store : Store
  isIndexing : Bool
deriving DecidableEq

/-- The `indexWorkspace` entry point.  A call observing the in-flight
guard returns immediately with no effect.  Otherwise the guard is set and
the pass body runs inside `try ... finally`; `failAfter = some k` models
an abortive throw out of the body (for example a failed directory
enumeration) after `k` files were processed, `none` a pass that runs to
completion — in either case the `finally` clears the guard. -/
def indexWorkspace (fs : List FsFile) (failAfter : Option Nat) (st : RagState) :
    RagState :=
  if st.isIndexing then st
  else
    let processed :=
      match failAfter with
      | some k => fs.take k
      | none => fs
    { store := indexPass processed st.store, isIndexing := false }

/-- Load the index from disk: parse the serialized blob and rebuild the
`Map`; a parse failure is caught and re-thrown as a load error.  The
parser (`JSON.parse` plus the unchecked cast) is abstract here — every
theorem about loading holds for all parse functions. -/
def loadIndex (parse : String → Option Store) (data : String) : Except String Store :=
  match parse data with
  | some serializedIndex => Except.ok serializedIndex
  | none => Except.error "Failed to load RAG index"

/-- Initialize the RAG service.  `blob` is the durable index file
contents, or `none` when the file is absent (`fs.access` throws): an
absent file yields a fresh empty index, and a `loadIndex` failure is
caught and degrades to an empty index; no error escapes to the caller. -/
def initializeService (parse : String → Option Store) (blob : Option String) :
    Except String Store :=
  match blob with
  | none => Except.ok []
  | some data =>
    match loadIndex parse data with
    | Except.ok s => Except.ok s
    | Except.error _ => Except.ok []

/-- Pairwise order on results used for ranking: descending relevance. -/
def scoreGe (a b : SearchResult) : Prop :=
  b.relevanceScore ≤ a.relevanceScore

/-- Concrete fixture: a small plaintext document whose content holds the
word `foo` twice. -/
def docFooFoo : IndexedDocument :=
  { path := "/ws/a.txt", content := "foo foo", language := "plaintext",
    lastModified := 10, tokens := 2, symbols := [], exports := [],
    comments := [], fileType := some "plaintext", imports := [] }

/-- Concrete fixture: the result `search` returns for `docFooFoo` on the
query `foo`. -/
def resFooFoo : SearchResult := { document := docFooFoo, relevanceScore := 1 }

/-- Concrete fixture: a document whose content is `abc`. -/
def docAbc : IndexedDocument :=
  { path := "/ws/b.txt", content := "abc", language := "plaintext",
    lastModified := 0, tokens := 1, symbols := [], exports := [],
    comments := [], fileType := none, imports := [] }

/-- Concrete fixture: a one-character accessible file. -/
def fileA : FsFile :=
  { path := "/ws/a.txt", content := "x", size := 1, mtime := 5,
    accessible := true, ioError := false }

/-- Spec-side definition (written from the claim's wording, for the
refinement comparison): the points one query term contributes to a
document — its occurrence count in the case-folded content, plus 5 per
symbol containing it, plus 3 per such export, plus 2 per such import,
plus 1.5 per such comment. -/
def claimTermPoints (doc : IndexedDocument) (t : String) : ℚ :=
  (countSubstr t (strLower doc.content) : ℚ)
    + 5 * ((doc.symbols.filter (fun s => includesStr (strLower s) t)).length : ℚ)
    + 3 * ((doc.exports.filter (fun s => includesStr (strLower s) t)).length : ℚ)
    + 2 * ((doc.imports.filter (fun s => includesStr (strLower s) t)).length : ℚ)
    + (3/2) * ((doc.comments.filter (fun s => includesStr (strLower s) t)).length : ℚ)

/-- Spec-side definition (from the claim's wording): the per-document
relevance score — the sum over query terms of `claimTermPoints`, plus 4
once for a file-type match, divided by the token count with a zero token
count treated as 1. -/
def claimScore (doc : IndexedDocument) (terms : List String) : ℚ :=
  ((terms.map (claimTermPoints doc)).sum + fileTypeBoost doc.fileType terms)
    / (if doc.tokens = 0 then 1 else (doc.tokens : ℚ))

/-- A file the indexing pass will not (re)read: denied by the access
filter, failing `stat`/`read`, oversized, or already indexed at least as
recently as its on-disk modification time. -/
def UpToDate (f : FsFile) (s : Store) : Prop :=
  f.accessible = false ∨ f.ioError = true ∨ 1024 * 1024 < f.size ∨
    ∃ d, s.lookup f.path = some d ∧ f.mtime ≤ d.lastModified

/-- Every document of the store has its token count derived from its
current content. -/
def TokensInv (s : Store) : Prop :=
  ∀ p d, (p, d) ∈ s → d.tokens = estimateTokenCount d.content

/-! ### Lemmas about the budget loop and the ranking -/

theorem greedyTake_length_le (mt t : Nat) (l : List SearchResult) :
    (greedyTake mt t l).length ≤ l.length := by
  induction l generalizing t with
  | nil => simp [greedyTake]
  | cons x xs ih =>
    simp only [greedyTake]
    split
    · simpa using ih (t + x.document.tokens)
    · exact Nat.le_succ_of_le (ih t)

theorem greedyTake_sum_le (mt : Nat) (l : List SearchResult) :
    ∀ t, t ≤ mt → t + sumTokens (greedyTake mt t l) ≤ mt := by
  induction l with
  | nil => intro t ht; simpa [greedyTake, sumTokens] using ht
  | cons x xs ih =>
    intro t ht
    simp only [greedyTake]
    split
    · rename_i h
      have hrec := ih (t + x.document.tokens) h
      simp only [sumTokens, List.map_cons, List.sum_cons] at hrec ⊢
      omega
    · exact ih t ht

theorem greedyTake_sublist (mt t : Nat) (l : List SearchResult) :
    (greedyTake mt t l).Sublist l := by
  induction l generalizing t with
  | nil => simp [greedyTake]
  | cons x xs ih =>
    simp only [greedyTake]
    split
    · exact (ih (t + x.document.tokens)).cons₂ x
    · exact (ih t).cons x

theorem mem_insertDesc (r a : SearchResult) (l : List SearchResult) :
    a ∈ insertDesc r l ↔ a = r ∨ a ∈ l := by
  induction l with
  | nil => simp [insertDesc]
  | cons x xs ih =>
    simp only [insertDesc]
    split <;> simp [List.mem_cons, ih] <;> tauto

theorem mem_sortByScoreDesc (a : SearchResult) (l : List SearchResult) :
    a ∈ sortByScoreDesc l ↔ a ∈ l := by
  induction l with
  | nil => simp [sortByScoreDesc]
  | cons x xs ih =>
    simp only [sortByScoreDesc, mem_insertDesc, ih, List.mem_cons]

theorem insertDesc_pairwise (r : SearchResult) (l : List SearchResult)
    (h : l.Pairwise scoreGe) : (insertDesc r l).Pairwise scoreGe := by
  induction l with
  | nil => simp [insertDesc]
  | cons x xs ih =>
    rcases List.pairwise_cons.mp h with ⟨hx, hxs⟩
    simp only [insertDesc]
    split
    · rename_i hlt
      refine List.pairwise_cons.mpr ⟨?_, ih hxs⟩
      intro b hb
      rcases (mem_insertDesc r b xs).mp hb with rfl | hbx
      · exact le_of_lt hlt
      · exact hx b hbx
    · rename_i hnlt
      refine List.pairwise_cons.mpr ⟨?_, h⟩
      intro b hb
      rcases List.mem_cons.mp hb with rfl | hbx
      · exact le_of_not_lt hnlt
      · exact le_trans (hx b hbx) (le_of_not_lt hnlt)

theorem sortByScoreDesc_pairwise (l : List SearchResult) :
    (sortByScoreDesc l).Pairwise scoreGe := by
  induction l with
  | nil => simp [sortByScoreDesc]
  | cons x xs ih => exact insertDesc_pairwise x (sortByScoreDesc xs) ih

theorem scoreDocs_pos (docs : List IndexedDocument) (ts : List String)
    (res : List SearchResult) (h : scoreDocs docs ts = Except.ok res) :
    ∀ r ∈ res, 0 < r.relevanceScore := by
  induction docs generalizing res with
  | nil =>
    simp only [scoreDocs, Except.ok.injEq] at h
    subst h; simp
  | cons d ds ih =>
    simp only [scoreDocs] at h
    cases hd : docScore d ts with
    | error e => rw [hd] at h; cases h
    | ok sc =>
      rw [hd] at h
      cases hrest : scoreDocs ds ts with
      | error e => rw [hrest] at h; cases h
      | ok rest =>
        rw [hrest] at h
        simp only [Except.ok.injEq] at h
        subst h
        intro r hr
        by_cases hpos : 0 < sc
        · rw [if_pos hpos] at hr
          rcases List.mem_cons.mp hr with rfl | hr2
          · exact hpos
          · exact ih rest hrest r hr2
        · rw [if_neg hpos] at hr
          exact ih rest hrest r hr

theorem search_ok_elim (docs : List IndexedDocument) (query : String)
    (maxResults maxTokens : Nat) (rs : List SearchResult)
    (h : search docs query maxResults maxTokens = Except.ok rs) :
    ∃ results, scoreDocs docs (tokenizeQuery query) = Except.ok results ∧
      rs = greedyTake maxTokens 0 ((sortByScoreDesc results).take maxResults) := by
  unfold search at h
  cases hs : scoreDocs docs (tokenizeQuery query) with
  | error e => rw [hs] at h; cases h
  | ok results =>
    rw [hs] at h
    simp only [Except.ok.injEq] at h
    exact ⟨results, rfl, h.symm⟩

/-! ### Claim theorems: search shape, positivity, determinism -/

/-- C1: every successful `search(query, maxResults, maxTokens)` returns
at most `maxResults` documents, in (pairwise) descending score order,
with the sum of `tokens` over the returned documents never exceeding
`maxTokens`; and the budget accumulation is greedy: a candidate whose
token count would push the running total past `maxTokens` is skipped
entirely and the iteration continues with the remaining ranked
candidates rather than stopping. -/
theorem search_budget_greedy
    (docs : List IndexedDocument) (query : String) (maxResults maxTokens : Nat)
    (rs : List SearchResult) (t : Nat) (x : SearchResult) (xs : List SearchResult)
    (h : search docs query maxResults maxTokens = Except.ok rs)
    (hx : maxTokens < t + x.document.tokens) :
    rs.length ≤ maxResults ∧ sumTokens rs ≤ maxTokens ∧ rs.Pairwise scoreGe ∧
      greedyTake maxTokens t (x :: xs) = greedyTake maxTokens t xs := by
  rcases search_ok_elim docs query maxResults maxTokens rs h with ⟨results, _, hrs⟩
  subst hrs
  refine ⟨?_, ?_, ?_, ?_⟩
  · calc (greedyTake maxTokens 0 ((sortByScoreDesc results).take maxResults)).length
        ≤ ((sortByScoreDesc results).take maxResults).length :=
          greedyTake_length_le _ _ _
      _ ≤ maxResults := by simp [List.length_take]
  · have := greedyTake_sum_le maxTokens
      ((sortByScoreDesc results).take maxResults) 0 (Nat.zero_le _)
    omega
  · exact List.Pairwise.sublist
      ((greedyTake_sublist _ _ _).trans (List.take_sublist _ _))
      (sortByScoreDesc_pairwise results)
  · simp only [greedyTake, if_neg (by omega : ¬ (t + x.document.tokens ≤ maxTokens))]

/-- Witness for C1 at a concrete store, query and over-budget candidate. -/
theorem search_budget_greedy_witness :
    ([resFooFoo] : List SearchResult).length ≤ 5 ∧ sumTokens [resFooFoo] ≤ 100 ∧
      ([resFooFoo] : List SearchResult).Pairwise scoreGe ∧
      greedyTake 100 101 [resFooFoo] = greedyTake 100 101 [] :=
  search_budget_greedy [docFooFoo] "foo" 5 100 [resFooFoo] 101 resFooFoo []
    (by decide) (by decide)

/-- C4: every result a successful `search` returns has a strictly
positive relevance score — documents scoring 0 or less are excluded from
the result list entirely. -/
theorem search_positive_score
    (docs : List IndexedDocument) (query : String) (maxResults maxTokens : Nat)
    (rs : List SearchResult) (r : SearchResult)
    (h : search docs query maxResults maxTokens = Except.ok rs) (hr : r ∈ rs) :
    0 < r.relevanceScore := by
  rcases search_ok_elim docs query maxResults maxTokens rs h with ⟨results, hsd, hrs⟩
  subst hrs
  have h1 : r ∈ (sortByScoreDesc results).take maxResults :=
    (greedyTake_sublist _ _ _).subset hr
  have h2 : r ∈ sortByScoreDesc results := (List.take_sublist _ _).subset h1
  exact scoreDocs_pos docs (tokenizeQuery query) results hsd r
    ((mem_sortByScoreDesc r results).mp h2)

/-- Witness for C4 at a concrete store and query. -/
theorem search_positive_score_witness : (0 : ℚ) < resFooFoo.relevanceScore :=
  search_positive_score [docFooFoo] "foo" 5 100 [resFooFoo] resFooFoo
    (by decide) (by decide)

/-- C8: `search` is deterministic — on an identical store snapshot with
an identical query and identical limits it returns the identical ordered
result sequence.  (In this embedding `search` is a pure function of the
snapshot: the store iteration order is the `Map` insertion order and the
ranking sort is the unique stable descending sort, so equal inputs give
equal outputs definitionally.) -/
theorem search_deterministic
    (docs₁ docs₂ : List IndexedDocument) (q₁ q₂ : String)
    (mr₁ mr₂ mt₁ mt₂ : Nat)
    (hdocs : docs₁ = docs₂) (hq : q₁ = q₂) (hmr : mr₁ = mr₂) (hmt : mt₁ = mt₂) :
    search docs₁ q₁ mr₁ mt₁ = search docs₂ q₂ mr₂ mt₂ := by
  subst hdocs; subst hq; subst hmr; subst hmt; rfl

/-- Witness for C8 at a concrete store and query. -/
theorem search_deterministic_witness :
    search [docFooFoo] "foo" 5 100 = search [docFooFoo] "foo" 5 100 :=
  search_deterministic [docFooFoo] [docFooFoo] "foo" "foo" 5 5 100 100
    rfl rfl rfl rfl

/-! ### Lemmas about the scoring formula -/

theorem rtoksMatchPrefix_lit :
    ∀ (pat s : List Char), rtoksMatchPrefix (pat.map RTok.lit) s = pat.isPrefixOf s
  | [], s => by cases s <;> simp [rtoksMatchPrefix, List.isPrefixOf]
  | p :: ps, [] => by simp [rtoksMatchPrefix, List.isPrefixOf]
  | p :: ps, x :: xs => by
    simp only [List.map_cons, rtoksMatchPrefix, List.isPrefixOf,
      rtoksMatchPrefix_lit ps xs]
    by_cases h : p = x <;> simp [h]

theorem regexCountFuel_lit (p : Char) (ps : List Char) :
    ∀ (fuel : Nat) (s : List Char),
      regexCountFuel (RTok.lit p) (ps.map RTok.lit) fuel s = countSubstrFuel p ps fuel s := by
  intro fuel
  induction fuel with
  | zero => intro s; cases s <;> simp [regexCountFuel, countSubstrFuel]
  | succ n ih =>
    intro s
    cases s with
    | nil => simp [regexCountFuel, countSubstrFuel]
    | cons c cs =>
      have hm : rtoksMatchPrefix (RTok.lit p :: ps.map RTok.lit) (c :: cs)
          = (p :: ps).isPrefixOf (c :: cs) := by
        simpa using rtoksMatchPrefix_lit (p :: ps) (c :: cs)
      simp only [regexCountFuel, countSubstrFuel, hm, List.length_map]
      split <;> simp [ih]

theorem compileRegex_literal (t : String) (h : regexLiteralTerm t = true) :
    compileRegex t = some (t.toList.map RTok.lit) := by
  unfold regexLiteralTerm at h
  rw [List.all_eq_true] at h
  have hno : t.toList.any (fun c => regexSpecials.contains c) = false := by
    rw [List.any_eq_false]
    intro c hc
    have hcp := h c hc
    simp only [Bool.and_eq_true, Bool.not_eq_true'] at hcp
    simpa using hcp.2
  unfold compileRegex
  rw [hno]
  simp only [Bool.false_eq_true, if_false, Option.some.injEq]
  refine List.map_congr_left ?_
  intro c hc
  have hcp := h c hc
  simp only [Bool.and_eq_true, Bool.not_eq_true'] at hcp
  have hcd : ¬ c = '.' := of_decide_eq_false hcp.1
  simp [hcd]

theorem jsMatchCount_literal (t content : String) (h : regexLiteralTerm t = true) :
    jsMatchCount t content = some (countSubstr t content) := by
  unfold jsMatchCount countSubstr
  rw [compileRegex_literal t h]
  cases ht : t.toList with
  | nil => simp
  | cons p ps => simp [regexCountAux, countSubstrAux, regexCountFuel_lit]

theorem contentScore_literal (c : String) (ts : List String)
    (h : ∀ t ∈ ts, regexLiteralTerm t = true) :
    contentScore c ts = Except.ok ((ts.map (fun t => (countSubstr t c : ℚ))).sum) := by
  induction ts with
  | nil => simp [contentScore]
  | cons t ts ih =>
    have ht := h t (by simp)
    have hrest := ih (fun u hu => h u (by simp [hu]))
    simp [contentScore, jsMatchCount_literal t c ht, hrest]

theorem foldl_boost_eq (w : ℚ) (P : String → Bool) (items : List String) :
    ∀ a : ℚ, items.foldl (fun acc it => if P it then acc + w else acc) a
      = a + w * ((items.filter P).length : ℚ) := by
  induction items with
  | nil => intro a; simp
  | cons x xs ih =>
    intro a
    by_cases h : P x <;>
      simp only [List.foldl_cons, h, if_true, if_false, ih, List.filter_cons,
        Bool.false_eq_true, List.length_cons] <;>
      push_cast <;> ring

theorem metaBoost_eq (w : ℚ) (ts items : List String) :
    metaBoost w ts items
      = w * ((ts.map (fun t =>
          ((items.filter (fun it => includesStr (strLower it) t)).length : ℚ))).sum) := by
  unfold metaBoost
  suffices hgen : ∀ a : ℚ, ts.foldl
      (fun acc t =>
        items.foldl (fun acc2 it => if includesStr (strLower it) t then acc2 + w else acc2) acc)
      a
      = a + w * ((ts.map (fun t =>
          ((items.filter (fun it => includesStr (strLower it) t)).length : ℚ))).sum) by
    simpa using hgen 0
  induction ts with
  | nil => intro a; simp
  | cons t ts ih =>
    intro a
    rw [List.foldl_cons, ih, foldl_boost_eq, List.map_cons, List.sum_cons]
    ring

theorem claimTermPoints_sum (doc : IndexedDocument) (terms : List String) :
    (terms.map (claimTermPoints doc)).sum
      = (terms.map (fun t => (countSubstr t (strLower doc.content) : ℚ))).sum
        + 5 * (terms.map (fun t =>
            ((doc.symbols.filter (fun s => includesStr (strLower s) t)).length : ℚ))).sum
        + 3 * (terms.map (fun t =>
            ((doc.exports.filter (fun s => includesStr (strLower s) t)).length : ℚ))).sum
        + 2 * (terms.map (fun t =>
            ((doc.imports.filter (fun s => includesStr (strLower s) t)).length : ℚ))).sum
        + (3/2) * (terms.map (fun t =>
            ((doc.comments.filter (fun s => includesStr (strLower s) t)).length : ℚ))).sum := by
  induction terms with
  | nil => simp
  | cons t ts ih =>
    simp only [List.map_cons, List.sum_cons, ih, claimTermPoints]
    ring

/-! ### Claim theorems: the scoring formula -/

/-- C2 counterexample: the claim's formula counts literal occurrences of
each term, but the source compiles the term as a regex pattern, so on the
store `[docAbc]` (content `abc`) and the query `a.c` the score `search`
computes is `1` (the pattern `a.c` matches `abc` via the wildcard) while
the claim's formula yields `0` — by the claim (and C4) the document
would have to be excluded, yet it is returned. -/
theorem docScore_formula_cex :
    search [docAbc] "a.c" 5 1000
        = Except.ok [{ document := docAbc, relevanceScore := 1 }] ∧
      docScore docAbc (tokenizeQuery "a.c") = Except.ok 1 ∧
      claimScore docAbc (tokenizeQuery "a.c") = 0 := by
  refine ⟨by decide, by decide, by decide⟩

/-- C2 (amended): for query terms free of regex metacharacters — for
which pattern matching is literal substring counting — the per-document
relevance score `search` computes equals the claim's formula: the sum
over query terms of (occurrences in the case-folded content, plus 5 per
symbol containing the term, plus 3 per such export, plus 2 per such
import, plus 1.5 per such comment), plus 4 once for a file-type match,
divided by the token count with zero treated as 1.  (For a term with
metacharacters the content count is the pattern-match count instead; see
the counterexample.) -/
theorem docScore_formula (doc : IndexedDocument) (terms : List String)
    (h : ∀ t ∈ terms, regexLiteralTerm t = true) :
    docScore doc terms = Except.ok (claimScore doc terms) := by
  unfold docScore
  rw [contentScore_literal (strLower doc.content) terms h]
  simp only [claimScore, claimTermPoints_sum, metaBoost_eq, Except.ok.injEq]
  congr 1
  ring

/-- Witness for C2 (amended) at a concrete document and term list. -/
theorem docScore_formula_witness :
    docScore docFooFoo ["foo"] = Except.ok (claimScore docFooFoo ["foo"]) :=
  docScore_formula docFooFoo ["foo"] (by decide)

/-! ### Lemmas about deduplication -/

theorem dedupFirstAux_nodup (l : List String) :
    ∀ seen : List String,
      (dedupFirstAux seen l).Nodup ∧ ∀ x ∈ dedupFirstAux seen l, x ∉ seen := by
  induction l with
  | nil => intro seen; simp [dedupFirstAux]
  | cons x xs ih =>
    intro seen
    simp only [dedupFirstAux]
    split
    · exact ih seen
    · rename_i hns
      obtain ⟨hnd, hmem⟩ := ih (x :: seen)
      refine ⟨List.nodup_cons.mpr ⟨?_, hnd⟩, ?_⟩
      · intro hx
        exact (hmem x hx) (by simp)
      · intro y hy
        rcases List.mem_cons.mp hy with rfl | hy2
        · simpa using hns
        · intro hyseen
          exact (hmem y hy2) (by simp [hyseen])

theorem jsSetDedup_nodup (l : List String) : (jsSetDedup l).Nodup :=
  (dedupFirstAux_nodup l []).1

/-! ### Claim theorems: deduplication of the extracted metadata -/

/-- C3 counterexample: on a content with the same line comment twice,
`extractComments` returns the cleaned comment twice — the comments list
is not deduplicated. -/
theorem extract_dedup_cex :
    extractComments "// a\n// a" "typescript" = ["a", "a"] ∧
      ¬ (extractComments "// a\n// a" "typescript").Nodup := by
  exact ⟨by decide, by decide⟩

/-- C3 (amended): for every content and language the extracted symbols,
imports and exports lists contain no duplicates; the comments list is
returned without deduplication and can contain duplicates (see the
counterexample). -/
theorem extract_dedup (content language : String) :
    (extractSymbols content language).Nodup ∧
      (extractImports content language).Nodup ∧
      (extractExports content language).Nodup := by
  refine ⟨?_, ?_, ?_⟩
  · unfold extractSymbols
    split_ifs <;> exact jsSetDedup_nodup _
  · unfold extractImports
    split_ifs <;> exact jsSetDedup_nodup _
  · unfold extractExports
    split_ifs <;> exact jsSetDedup_nodup _

/-! ### Lemmas about the token count and the store invariant -/

theorem estimateTokenCount_ceil (text : String) :
    ⌈(text.length : ℚ) / 4⌉ = (estimateTokenCount text : ℤ) := by
  unfold estimateTokenCount
  have h4 : (0 : ℚ) < 4 := by norm_num
  obtain ⟨k, hk⟩ : ∃ k, (text.length + 3) / 4 = k := ⟨_, rfl⟩
  rw [hk]
  have h1 : text.length ≤ 4 * k := by omega
  have h2 : 4 * k < text.length + 4 := by omega
  have h1q : (text.length : ℚ) ≤ 4 * (k : ℚ) := by exact_mod_cast h1
  have h2q : 4 * (k : ℚ) < (text.length : ℚ) + 4 := by exact_mod_cast h2
  rw [Int.ceil_eq_iff]
  constructor
  · push_cast
    rw [lt_div_iff₀ h4]
    linarith
  · push_cast
    rw [div_le_iff₀ h4]
    linarith

theorem mem_mapSet (k : String) (v : IndexedDocument) (s : Store)
    (p : String) (d : IndexedDocument) :
    (p, d) ∈ mapSet k v s → (p = k ∧ d = v) ∨ (p, d) ∈ s := by
  induction s with
  | nil =>
    intro h
    simp only [mapSet, List.mem_singleton, Prod.mk.injEq] at h
    exact Or.inl h
  | cons kv rest ih =>
    obtain ⟨k', v'⟩ := kv
    simp only [mapSet]
    split
    · intro h
      rcases List.mem_cons.mp h with h1 | h2
      · simp only [Prod.mk.injEq] at h1
        exact Or.inl h1
      · exact Or.inr (List.mem_cons_of_mem _ h2)
    · intro h
      rcases List.mem_cons.mp h with h1 | h2
      · exact Or.inr (h1 ▸ List.mem_cons_self _ _)
      · rcases ih h2 with h3 | h4
        · exact Or.inl h3
        · exact Or.inr (List.mem_cons_of_mem _ h4)

theorem indexFileT_cases (s : Store) (tr : List String) (f : FsFile) :
    (UpToDate f s ∧ indexFileT (s, tr) f = (s, tr)) ∨
      ((∀ d', s.lookup f.path = some d' → d'.lastModified < f.mtime) ∧
        indexFileT (s, tr) f = (mapSet f.path (mkDoc f) s, tr ++ [f.path])) := by
  by_cases h1 : f.accessible
  · by_cases h2 : f.ioError
    · refine Or.inl ⟨Or.inr (Or.inl h2), ?_⟩
      unfold indexFileT
      simp [h1, h2]
    · by_cases h3 : 1024 * 1024 < f.size
      · refine Or.inl ⟨Or.inr (Or.inr (Or.inl h3)), ?_⟩
        unfold indexFileT
        simp [h1, h2, h3]
      · cases hl : s.lookup f.path with
        | none =>
          refine Or.inr ⟨by simp [hl], ?_⟩
          unfold indexFileT
          simp [h1, h2, h3, hl]
        | some d =>
          by_cases h4 : f.mtime ≤ d.lastModified
          · refine Or.inl ⟨Or.inr (Or.inr (Or.inr ⟨d, hl, h4⟩)), ?_⟩
            unfold indexFileT
            simp [h1, h2, h3, hl, h4]
          · refine Or.inr ⟨?_, ?_⟩
            · intro d' hd'
              have hdd : d = d' := Option.some.inj hd'
              subst hdd
              omega
            · unfold indexFileT
              simp [h1, h2, h3, hl, h4]
  · refine Or.inl ⟨Or.inl (by simpa using h1), ?_⟩
    unfold indexFileT
    simp [h1]

theorem indexFileT_fst_tokensInv (s : Store) (tr : List String) (f : FsFile)
    (h : TokensInv s) : TokensInv (indexFileT (s, tr) f).1 := by
  rcases indexFileT_cases s tr f with ⟨_, hc⟩ | ⟨_, hc⟩ <;> rw [hc]
  · exact h
  · intro p d hmem
    rcases mem_mapSet _ _ _ _ _ hmem with ⟨_, rfl⟩ | hmem2
    · rfl
    · exact h p d hmem2

theorem indexPassT_tokensInv (fs : List FsFile) :
    ∀ acc : Store × List String, TokensInv acc.1 →
      TokensInv (fs.foldl indexFileT acc).1 := by
  induction fs with
  | nil => intro acc h; simpa using h
  | cons f fs ih =>
    intro acc h
    rw [List.foldl_cons]
    apply ih
    obtain ⟨s, tr⟩ := acc
    exact indexFileT_fst_tokensInv s tr f h

/-! ### Claim theorems: the token count -/

/-- C5: the token estimate is `ceil(length / 4)` (stated against the
mathematical ceiling); every document of a store satisfying the
token-count invariant still satisfies it after an indexing pass (the
pass recomputes rather than carries over); and the document built for a
freshly read file derives its token count from the just-read content. -/
theorem tokenCount_ceil
    (text : String) (fs : List FsFile) (store : Store)
    (p : String) (d : IndexedDocument) (f : FsFile)
    (hstore : TokensInv store)
    (hd : (p, d) ∈ indexPass fs store) :
    ⌈(text.length : ℚ) / 4⌉ = (estimateTokenCount text : ℤ) ∧
      d.tokens = estimateTokenCount d.content ∧
      (mkDoc f).tokens = estimateTokenCount (mkDoc f).content :=
  ⟨estimateTokenCount_ceil text,
    indexPassT_tokensInv fs (store, []) hstore p d hd, rfl⟩

/-- Witness for C5 at a concrete file and pass. -/
theorem tokenCount_ceil_witness :
    ⌈(("abcde" : String).length : ℚ) / 4⌉ = (estimateTokenCount "abcde" : ℤ) ∧
      (mkDoc fileA).tokens = estimateTokenCount (mkDoc fileA).content ∧
      (mkDoc fileA).tokens = estimateTokenCount (mkDoc fileA).content :=
  tokenCount_ceil "abcde" [fileA] [] fileA.path (mkDoc fileA) fileA
    (fun p d h => absurd h (List.not_mem_nil _))
    (by decide)

/-! ### Lemmas about idempotence of the indexing pass -/

theorem lookup_mapSet_self (k : String) (v : IndexedDocument) (s : Store) :
    (mapSet k v s).lookup k = some v := by
  induction s with
  | nil => simp [mapSet, List.lookup]
  | cons kv rest ih =>
    obtain ⟨k', v'⟩ := kv
    simp only [mapSet]
    split
    · simp [List.lookup]
    · rename_i h
      have hbeq : (k == k') = false := beq_eq_false_iff_ne.mpr (fun hh => h hh.symm)
      simp [List.lookup, hbeq, ih]

theorem lookup_mapSet_ne (k k' : String) (v : IndexedDocument) (s : Store)
    (h : ¬ k' = k) : (mapSet k v s).lookup k' = s.lookup k' := by
  have hbeq : (k' == k) = false := beq_eq_false_iff_ne.mpr h
  induction s with
  | nil => simp [mapSet, List.lookup, hbeq]
  | cons kv rest ih =>
    obtain ⟨k0, v0⟩ := kv
    simp only [mapSet]
    split
    · rename_i hk
      subst hk
      simp [List.lookup, hbeq]
    · cases hb0 : k' == k0 <;> simp [List.lookup, hb0, ih]

theorem indexFileT_skip (s : Store) (tr : List String) (f : FsFile)
    (h : UpToDate f s) : indexFileT (s, tr) f = (s, tr) := by
  unfold indexFileT
  rcases h with h1 | h2 | h3 | ⟨d, hl, hle⟩
  · simp [h1]
  · by_cases h1 : f.accessible <;> simp [h1, h2]
  · by_cases h1 : f.accessible <;> by_cases h2 : f.ioError <;> simp [h1, h2, h3]
  · by_cases h1 : f.accessible <;> by_cases h2 : f.ioError <;>
      by_cases h3 : 1024 * 1024 < f.size <;> simp [h1, h2, h3, hl, hle]

theorem indexFileT_establishes (s : Store) (tr : List String) (f : FsFile) :
    UpToDate f (indexFileT (s, tr) f).1 := by
  rcases indexFileT_cases s tr f with ⟨hu, hc⟩ | ⟨_, hc⟩ <;> rw [hc]
  · exact hu
  · exact Or.inr (Or.inr (Or.inr
      ⟨mkDoc f, lookup_mapSet_self f.path (mkDoc f) s, le_refl f.mtime⟩))

theorem indexFileT_preserves (s : Store) (tr : List String) (f g : FsFile)
    (h : UpToDate f s) : UpToDate f (indexFileT (s, tr) g).1 := by
  rcases indexFileT_cases s tr g with ⟨_, hc⟩ | ⟨hlt, hc⟩ <;> rw [hc]
  · exact h
  · rcases h with h1 | h2 | h3 | ⟨d, hl, hle⟩
    · exact Or.inl h1
    · exact Or.inr (Or.inl h2)
    · exact Or.inr (Or.inr (Or.inl h3))
    · by_cases hp : f.path = g.path
      · refine Or.inr (Or.inr (Or.inr ⟨mkDoc g, ?_, ?_⟩))
        · show (mapSet g.path (mkDoc g) s).lookup f.path = some (mkDoc g)
          rw [hp]
          exact lookup_mapSet_self g.path (mkDoc g) s
        · have hdlt : d.lastModified < g.mtime := hlt d (hp ▸ hl)
          show f.mtime ≤ (mkDoc g).lastModified
          have hmk : (mkDoc g).lastModified = g.mtime := rfl
          omega
      · refine Or.inr (Or.inr (Or.inr ⟨d, ?_, hle⟩))
        show (mapSet g.path (mkDoc g) s).lookup f.path = some d
        rw [lookup_mapSet_ne g.path f.path (mkDoc g) s hp]
        exact hl

theorem foldl_indexFileT_preserves (fs : List FsFile) :
    ∀ (acc : Store × List String) (f : FsFile), UpToDate f acc.1 →
      UpToDate f (fs.foldl indexFileT acc).1 := by
  induction fs with
  | nil => intro acc f h; simpa using h
  | cons g gs ih =>
    intro acc f h
    rw [List.foldl_cons]
    apply ih
    obtain ⟨s, tr⟩ := acc
    exact indexFileT_preserves s tr f g h

theorem indexPassT_upToDate (fs : List FsFile) :
    ∀ (acc : Store × List String) (f : FsFile), f ∈ fs →
      UpToDate f (fs.foldl indexFileT acc).1 := by
  induction fs with
  | nil => intro acc f h; exact absurd h (List.not_mem_nil _)
  | cons g gs ih =>
    intro acc f hf
    rw [List.foldl_cons]
    rcases List.mem_cons.mp hf with rfl | hf2
    · apply foldl_indexFileT_preserves
      obtain ⟨s, tr⟩ := acc
      exact indexFileT_establishes s tr f
    · exact ih _ f hf2

theorem foldl_indexFileT_fix (fs : List FsFile) :
    ∀ (s : Store) (tr : List String), (∀ f ∈ fs, UpToDate f s) →
      fs.foldl indexFileT (s, tr) = (s, tr) := by
  induction fs with
  | nil => intro s tr _; rfl
  | cons f fs ih =>
    intro s tr h
    rw [List.foldl_cons, indexFileT_skip s tr f (h f (by simp))]
    exact ih s tr (fun g hg => h g (by simp [hg]))

/-! ### Claim theorems: idempotence and freshness skipping -/

/-- C6: running the indexing pass twice over the same filesystem
snapshot yields an identical store — because the pass leaves every file
whose stored `lastModified` is at least its current modification time
untouched: such a file is neither re-read (the read trace is unchanged)
nor re-extracted (the store is unchanged). -/
theorem reindex_idempotent
    (fs : List FsFile) (store s : Store) (tr : List String)
    (f : FsFile) (d : IndexedDocument)
    (h1 : s.lookup f.path = some d) (h2 : f.mtime ≤ d.lastModified) :
    indexPass fs (indexPass fs store) = indexPass fs store ∧
      indexFileT (s, tr) f = (s, tr) := by
  constructor
  · show (indexPassT fs (indexPass fs store)).1 = indexPass fs store
    unfold indexPassT
    rw [foldl_indexFileT_fix fs (indexPass fs store) []
      (fun g hg => indexPassT_upToDate fs (store, []) g hg)]
  · exact indexFileT_skip s tr f (Or.inr (Or.inr (Or.inr ⟨d, h1, h2⟩)))

/-- Witness for C6 at a concrete filesystem and store. -/
theorem reindex_idempotent_witness :
    indexPass [fileA] (indexPass [fileA] []) = indexPass [fileA] [] ∧
      indexFileT ([("/ws/a.txt", docFooFoo)], []) fileA
        = ([("/ws/a.txt", docFooFoo)], []) :=
  reindex_idempotent [fileA] [] [("/ws/a.txt", docFooFoo)] [] fileA docFooFoo
    (by decide) (by decide)

/-! ### Claim theorems: the in-flight guard, initialization, regex totality -/

/-- C7: two indexing passes never run interleaved on the same store — an
`indexWorkspace` call that observes the in-flight guard set returns
immediately with no effect on the state (it is neither queued nor an
error); and a call that does run clears the guard when it finishes, even
when the pass body aborts early with a failure (`failAfter`). -/
theorem indexWorkspace_guard
    (fs : List FsFile) (failAfter : Option Nat) (st st' : RagState)
    (h : st.isIndexing = true) (h' : st'.isIndexing = false) :
    indexWorkspace fs failAfter st = st ∧
      (indexWorkspace fs failAfter st').isIndexing = false := by
  constructor
  · unfold indexWorkspace
    simp [h]
  · unfold indexWorkspace
    simp [h']

/-- Witness for C7: a busy state is untouched by a second call, and a
pass that aborts after zero files still ends with the guard cleared. -/
theorem indexWorkspace_guard_witness :
    indexWorkspace [fileA] (some 0) { store := [("p", docAbc)], isIndexing := true }
        = { store := [("p", docAbc)], isIndexing := true } ∧
      (indexWorkspace [fileA] (some 0)
        { store := [], isIndexing := false }).isIndexing = false :=
  indexWorkspace_guard [fileA] (some 0)
    { store := [("p", docAbc)], isIndexing := true }
    { store := [], isIndexing := false } rfl rfl

/-- C9: initialization never propagates a load failure to the caller: it
always returns a store; an absent durable blob yields the empty store; an
unparseable blob also yields the empty store; and the load error itself
is raised exactly inside `loadIndex`, whence `initializeService` catches
it. -/
theorem initialize_degrades
    (parse : String → Option Store) (blob : Option String) (data : String)
    (hbad : parse data = none) :
    (∃ s, initializeService parse blob = Except.ok s) ∧
      initializeService parse none = Except.ok [] ∧
      initializeService parse (some data) = Except.ok [] ∧
      loadIndex parse data = Except.error "Failed to load RAG index" := by
  refine ⟨?_, rfl, ?_, ?_⟩
  · cases blob with
    | none => exact ⟨[], rfl⟩
    | some b =>
      unfold initializeService
      cases hl : loadIndex parse b with
      | ok s => exact ⟨s, by simp [hl]⟩
      | error e => exact ⟨[], by simp [hl]⟩
  · simp [initializeService, loadIndex, hbad]
  · simp [loadIndex, hbad]

/-- Witness for C9 with a parser that rejects every blob. -/
theorem initialize_degrades_witness :
    (∃ s, initializeService (fun _ => none) (some "garbage") = Except.ok s) ∧
      initializeService (fun _ => none) none = Except.ok [] ∧
      initializeService (fun _ => none) (some "garbage") = Except.ok [] ∧
      loadIndex (fun _ => none) "garbage" = Except.error "Failed to load RAG index" :=
  initialize_degrades (fun _ => none) (some "garbage") "garbage" rfl

/-- C10: `search` is not total over query strings, because every query
term is compiled directly as a regex pattern: on a nonempty store the
query `(((` (one term, an invalid pattern) makes `search` throw instead
of returning a result list; and a term with metacharacters is counted as
pattern matches, not literal occurrences — `a.c` matches `abc` once as a
pattern yet never occurs in it as a substring. -/
theorem search_regex_nontotal :
    search [docAbc] "(((" 5 1000 = Except.error () ∧
      tokenizeQuery "(((" = ["((("] ∧
      compileRegex "(((" = none ∧
      jsMatchCount "a.c" "abc" = some 1 ∧
      countSubstr "a.c" "abc" = 0 := by
  exact ⟨by decide, by decide, by decide, by decide, by decide⟩

end Rag
